import Mathlib

/-!
# A shallow embedding of `sift`'s core pipelines

Spark pair-RDDs are modelled as Lean lists of pairs.  Transformations
(`map`, `flatMap`, `filter`, `leftOuterJoin`, `reduceByKey`, `groupByKey`,
`distinct`, `sortByKey`, `zipWithIndex`) become list functions; Python
truthiness of join results (`x or y`, `filter(lambda r: r[1])`) is modelled
explicitly on `Option String` / `String` / `List`.
-/

namespace Sift

/-- Python `x or y` for a left-outer-join slot: `None` and the empty string
are falsy, so they fall back to the default. -/
def pyOr : Option String → String → String
  | some s, d => if s = "" then d else s
  | none, d => d

/-- Spark `l.leftOuterJoin(r)`: for each left entry, one output per matching
right entry, or a single `none`-marked output when no right entry shares the
key. -/
def leftOuterJoin {κ α β : Type} [DecidableEq κ]
    (l : List (κ × α)) (r : List (κ × β)) : List (κ × (α × Option β)) :=
  l.flatMap fun p =>
    if (r.filter fun q => q.1 = p.1).isEmpty then [(p.1, (p.2, none))]
    else (r.filter fun q => q.1 = p.1).map fun q => (p.1, (p.2, some q.2))

/-- De-duplication keeping the first occurrence (Python `set`-guarded
iteration; also Spark `distinct()` whose output order we fix this way). -/
def dedupFirstAux {α : Type} [DecidableEq α] (seen : List α) : List α → List α
  | [] => []
  | x :: xs =>
    if x ∈ seen then dedupFirstAux seen xs
    else x :: dedupFirstAux (x :: seen) xs

def dedupFirst {α : Type} [DecidableEq α] (l : List α) : List α :=
  dedupFirstAux [] l

/-! ## `sift.corpora.redirects.MapRedirects` -/

/-- `MapRedirects.map_redirects(source, target)`:
`source.map(swap).leftOuterJoin(target).map((r[1][0], r[1][1] or r[0])).distinct()`. -/
def map_redirects (source target : List (String × String)) : List (String × String) :=
  dedupFirst
    (((leftOuterJoin (source.map fun r => (r.2, r.1)) target).map
      fun r => (r.2.1, pyOr r.2.2 r.1)))

/-- The `mapped_to` stage of `MapRedirects.build`:
`to_rds.leftOuterJoin(from_rds).map((r[1][1] or r[0], r[1][0]))`. -/
def mapped_to (to_rds from_rds : List (String × String)) : List (String × String) :=
  (leftOuterJoin to_rds from_rds).map fun r => (pyOr r.2.2 r.1, r.2.1)

/-- The `mapped_from` stage of `MapRedirects.build`:
`from_rds.map((r[0], r[1])).leftOuterJoin(mapped_to).map((r[1][0], r[1][1]))
 .filter(r[1])` — note the first `map` is the identity, so the join is keyed
on the from-edge's *source*; the final `filter` keeps only truthy (matched,
non-empty) values. -/
def mapped_from (from_rds to_rds : List (String × String)) : List (String × String) :=
  ((leftOuterJoin (from_rds.map fun r => (r.1, r.2)) (mapped_to to_rds from_rds)).map
      fun r => (r.2.1, r.2.2)).filterMap
    fun p => match p.2 with
      | none => none
      | some s => if s = "" then none else some (p.1, s)

/-- `MapRedirects.build(from_rds, to_rds)`: union the two stages, `distinct`,
then one self-composition pass through `map_redirects`. -/
def build (from_rds to_rds : List (String × String)) : List (String × String) :=
  let mt := mapped_to to_rds from_rds
  let mf := mapped_from from_rds to_rds
  let rds := dedupFirst (mf ++ mt)
  map_redirects rds rds

/-! ## Membership lemmas for the engine model -/

theorem mem_leftOuterJoin {κ α β : Type} [DecidableEq κ]
    {l : List (κ × α)} {r : List (κ × β)} {k : κ} {a : α} {ob : Option β} :
    (k, (a, ob)) ∈ leftOuterJoin l r ↔
      (k, a) ∈ l ∧
        ((∃ b, ob = some b ∧ (k, b) ∈ r) ∨ (ob = none ∧ ∀ b, (k, b) ∉ r)) := by
  unfold leftOuterJoin
  rw [List.mem_flatMap]
  constructor
  · rintro ⟨p, hp, hmem⟩
    by_cases hms : ((r.filter fun q => q.1 = p.1).isEmpty : Bool)
    · rw [if_pos hms] at hmem
      simp only [List.mem_singleton, Prod.mk.injEq] at hmem
      obtain ⟨hk, ha, hob⟩ := hmem
      subst hk; subst ha; subst hob
      rw [List.isEmpty_iff, List.filter_eq_nil_iff] at hms
      refine ⟨hp, Or.inr ⟨rfl, fun b hb => ?_⟩⟩
      have h2 := hms (p.1, b) hb
      simp at h2
    · rw [if_neg hms] at hmem
      simp only [List.mem_map] at hmem
      obtain ⟨q, hq, heq⟩ := hmem
      rw [List.mem_filter] at hq
      simp only [Prod.mk.injEq] at heq
      obtain ⟨hk, ha, hob⟩ := heq
      subst hk; subst ha; subst hob
      refine ⟨hp, Or.inl ⟨q.2, rfl, ?_⟩⟩
      have hk : q.1 = p.1 := by simpa using hq.2
      rw [← hk]
      exact hq.1
  · rintro ⟨hl, hb | hn⟩
    · obtain ⟨b, rfl, hbr⟩ := hb
      refine ⟨(k, a), hl, ?_⟩
      have hmem : (k, b) ∈ r.filter fun q => q.1 = (k, a).1 := by
        rw [List.mem_filter]
        exact ⟨hbr, by simp⟩
      rw [if_neg (by rw [List.isEmpty_iff]; exact fun h => by simp [h] at hmem)]
      exact List.mem_map.mpr ⟨(k, b), hmem, rfl⟩
    · obtain ⟨rfl, hn⟩ := hn
      refine ⟨(k, a), hl, ?_⟩
      rw [if_pos ?_]
      · simp
      · rw [List.isEmpty_iff, List.filter_eq_nil_iff]
        intro q hq
        simp only [decide_eq_true_eq]
        intro hqk
        refine hn q.2 ?_
        rw [← hqk]
        exact hq

theorem mem_dedupFirstAux {α : Type} [DecidableEq α] {x : α} :
    ∀ {l seen : List α}, x ∈ dedupFirstAux seen l ↔ x ∈ l ∧ x ∉ seen := by
  intro l
  induction l with
  | nil => intro seen; simp [dedupFirstAux]
  | cons y ys ih =>
    intro seen
    unfold dedupFirstAux
    by_cases hy : y ∈ seen
    · rw [if_pos hy, ih]
      constructor
      · exact fun ⟨h₁, h₂⟩ => ⟨List.mem_cons_of_mem _ h₁, h₂⟩
      · rintro ⟨h₁, h₂⟩
        rcases List.mem_cons.mp h₁ with rfl | h₁
        · exact absurd hy h₂
        · exact ⟨h₁, h₂⟩
    · rw [if_neg hy]
      constructor
      · intro h
        rcases List.mem_cons.mp h with rfl | h
        · exact ⟨List.mem_cons_self _ _, hy⟩
        · obtain ⟨h₁, h₂⟩ := ih.mp h
          exact ⟨List.mem_cons_of_mem _ h₁,
            fun hs => h₂ (List.mem_cons_of_mem _ hs)⟩
      · rintro ⟨h₁, h₂⟩
        rcases List.mem_cons.mp h₁ with rfl | h₁
        · exact List.mem_cons_self _ _
        · by_cases hxy : x = y
          · subst hxy; exact List.mem_cons_self _ _
          · exact List.mem_cons_of_mem _
              (ih.mpr ⟨h₁, fun hs => by
                rcases List.mem_cons.mp hs with h | h
                · exact hxy h
                · exact h₂ h⟩)

theorem mem_dedupFirst {α : Type} [DecidableEq α] {x : α} {l : List α} :
    x ∈ dedupFirst l ↔ x ∈ l := by
  unfold dedupFirst
  rw [mem_dedupFirstAux]
  simp

theorem nodup_dedupFirstAux {α : Type} [DecidableEq α] :
    ∀ {l seen : List α}, (dedupFirstAux seen l).Nodup := by
  intro l
  induction l with
  | nil => intro seen; simp [dedupFirstAux]
  | cons y ys ih =>
    intro seen
    unfold dedupFirstAux
    by_cases hy : y ∈ seen
    · rw [if_pos hy]; exact ih
    · rw [if_neg hy]
      refine List.Nodup.cons ?_ ih
      intro hmem
      exact (mem_dedupFirstAux.mp hmem).2 (List.mem_cons_self _ _)

theorem nodup_dedupFirst {α : Type} [DecidableEq α] {l : List α} :
    (dedupFirst l).Nodup :=
  nodup_dedupFirstAux

/-- Every redirect edge of `source` keeps its source id through one
`map_redirects` pass: the self-composition join either rewrites the target
(match) or keeps the edge via the `or`-fallback (miss). -/
theorem exists_source_map_redirects {s t : List (String × String)} {a b : String}
    (h : (a, b) ∈ s) : ∃ d, (a, d) ∈ map_redirects s t := by
  by_cases hc : ∃ c, (b, c) ∈ t
  · obtain ⟨c, hc⟩ := hc
    refine ⟨pyOr (some c) b, ?_⟩
    unfold map_redirects
    rw [mem_dedupFirst]
    refine List.mem_map.mpr ⟨(b, (a, some c)), ?_, rfl⟩
    exact mem_leftOuterJoin.mpr
      ⟨List.mem_map.mpr ⟨(a, b), h, rfl⟩, Or.inl ⟨c, rfl, hc⟩⟩
  · refine ⟨b, ?_⟩
    unfold map_redirects
    rw [mem_dedupFirst]
    refine List.mem_map.mpr ⟨(b, (a, none)), ?_, rfl⟩
    exact mem_leftOuterJoin.mpr
      ⟨List.mem_map.mpr ⟨(a, b), h, rfl⟩,
        Or.inr ⟨rfl, fun c hct => hc ⟨c, hct⟩⟩⟩

/-! ## Claims about `MapRedirects` -/

/-- C1: evaluating `MapRedirects.build` on the 2-hop chain A→B in
`from_rds`, B→C in `to_rds` — the claim (and the code's own comment
"(a > b) and (b > c) becomes (a > c)") says (A, C) is in the output, but the
`mapped_from` stage joins on the from-edge's source instead of its target
(an identity `map` where a swap is needed), so the output is just
[(B, C)] and contains no pair with source A. -/
theorem build_two_hop_chain_not_composed :
    build [("A", "B")] [("B", "C")] = [("B", "C")] ∧
      ("A", "C") ∉ build [("A", "B")] [("B", "C")] := by
  constructor
  · rfl
  · decide

/-- C2: at `from_rds` = [(A, B)], `to_rds` = [(B, C)], the `mapped_to` table
is [(B, C)] — keyed exactly on B, the from-edge's target, as the claim's
join expects a match — yet `mapped_from` is empty, because the code's join
is keyed on the from-edge's *source* A (the pre-join `map` is the identity,
not the swap): no entry `(resolved-target, a)` is emitted. -/
theorem mapped_from_keyed_on_source :
    mapped_to [("B", "C")] [("A", "B")] = [("B", "C")] ∧
      mapped_from [("A", "B")] [("B", "C")] = [] := by
  constructor
  · rfl
  · rfl

/-- C3 counterexample: with `from_rds` = [(A, B)] and `to_rds` = [], the
source id A of a `from_rds` edge is *not* resolvable in the output of
`MapRedirects.build` — the `mapped_from` stage drops its unmatched entry
instead of self-mapping, and the output is empty. -/
theorem from_only_source_dropped :
    build [("A", "B")] [] = [] ∧ ¬∃ d, ("A", d) ∈ build [("A", "B")] [] := by
  refine ⟨rfl, ?_⟩
  rintro ⟨d, hd⟩
  rw [show build [("A", "B")] [] = [] from rfl] at hd
  simp at hd

/-- C3 amended: the self-mapping fallback on a left-outer-join miss holds in
`mapped_to` and in the final `map_redirects` pass, so every `to_rds` source
that is not itself redirected in `from_rds` stays resolvable in the output
of `MapRedirects.build`; but `mapped_from` drops its unmatched entries, so a
source id appearing only in `from_rds` may disappear (see the
counterexample). -/
theorem to_source_resolvable (from_rds to_rds : List (String × String))
    (a b : String) (hab : (a, b) ∈ to_rds) (hnf : ∀ c, (a, c) ∉ from_rds) :
    ∃ d, (a, d) ∈ build from_rds to_rds := by
  have hmt : (a, b) ∈ mapped_to to_rds from_rds := by
    unfold mapped_to
    refine List.mem_map.mpr ⟨(a, (b, none)), ?_, rfl⟩
    exact mem_leftOuterJoin.mpr ⟨hab, Or.inr ⟨rfl, hnf⟩⟩
  unfold build
  exact exists_source_map_redirects
    (mem_dedupFirst.mpr (List.mem_append.mpr (Or.inr hmt)))

/-- C3 amended, witness: the `to_rds`-only source "B" stays resolvable. -/
theorem to_source_resolvable_witness :
    ∃ d, (("B", d) : String × String) ∈ build [] [("B", "C")] :=
  to_source_resolvable [] [("B", "C")] "B" "C" (by decide)
    (fun c hc => by simp at hc)

/-- C4: the `mapped_to` stage is exactly the left-outer join of `to_rds`
against `from_rds` keyed on the to-edge's source `a`: for each edge (a, y)
in `to_rds` it emits, per matching `from_rds` edge (a, c), the pair
(c, y) with the matched value preferred as the new source (`pyOr` models
Python's `or`: an empty-string match also falls back to `a`), and the
unchanged pair (a, y) exactly when no `from_rds` edge has source `a`. -/
theorem mapped_to_left_join_spec (from_rds to_rds : List (String × String))
    (x y : String) :
    (x, y) ∈ mapped_to to_rds from_rds ↔
      ∃ a, (a, y) ∈ to_rds ∧
        ((∃ c, (a, c) ∈ from_rds ∧ x = pyOr (some c) a) ∨
         ((∀ c, (a, c) ∉ from_rds) ∧ x = a)) := by
  unfold mapped_to
  rw [List.mem_map]
  constructor
  · rintro ⟨⟨k, v, ob⟩, hj, heq⟩
    obtain ⟨hl, hr⟩ := mem_leftOuterJoin.mp hj
    simp only [Prod.mk.injEq] at heq
    obtain ⟨hx, hy⟩ := heq
    subst hy
    rcases hr with ⟨c, rfl, hc⟩ | ⟨rfl, hn⟩
    · exact ⟨k, hl, Or.inl ⟨c, hc, hx.symm⟩⟩
    · exact ⟨k, hl, Or.inr ⟨hn, hx.symm⟩⟩
  · rintro ⟨a, hay, ⟨c, hc, rfl⟩ | ⟨hn, rfl⟩⟩
    · exact ⟨(a, (y, some c)),
        mem_leftOuterJoin.mpr ⟨hay, Or.inl ⟨c, rfl, hc⟩⟩, rfl⟩
    · exact ⟨_, mem_leftOuterJoin.mpr ⟨hay, Or.inr ⟨rfl, hn⟩⟩, rfl⟩

/-! ## The document model of `sift.models.links` -/

/-- A link record: `{target, start, stop}` — a half-open character span into
the document text naming a target entity. -/
structure Link where
  target : String
  start : Nat
  stop : Nat
deriving DecidableEq

/-- A document record: `{_id, text, links}`. -/
structure Document where
  _id : String
  text : String
  links : List Link
deriving DecidableEq

/-- Python `s[start:stop]` on a string, as characters. -/
def pySlice (s : String) (start stop : Nat) : String :=
  ⟨(s.toList.drop start).take (stop - start)⟩

/-- Python `s.strip()`: drop leading and trailing whitespace. -/
def pyStrip (s : String) : String :=
  ⟨((s.toList.dropWhile Char.isWhitespace).reverse.dropWhile
      Char.isWhitespace).reverse⟩

/-- Split a character list into maximal runs of non-space characters
(`cur` is the current token, reversed). -/
def tokensAux : List Char → List Char → List String
  | cur, [] => if cur = [] then [] else [⟨cur.reverse⟩]
  | cur, c :: rest =>
    if c = ' ' then
      if cur = [] then tokensAux [] rest
      else ⟨cur.reverse⟩ :: tokensAux [] rest
    else tokensAux (c :: cur) rest

/-- The whitespace tokens of a string. -/
def tokens (s : String) : List String :=
  tokensAux [] s.toList

/-- Modelled from the spec: `ngrams` (from `sift.util`, whose source is not
under src/) — token n-grams over whitespace-separated tokens.  The spec's
example splits the anchor "New York" into the unigrams "New" and "York", and
for the background stream prescribes "size = max_n only", so `ngrams s n` is
the list of all contiguous runs of exactly `n` tokens, re-joined by single
spaces; `ngrams(anchor, n, n)` at the anchor call site has the same
exactly-`n` meaning. -/
def ngrams (s : String) (n : Nat) : List String :=
  (List.range ((tokens s).length + 1 - n)).map fun i =>
    String.intercalate " " (((tokens s).drop i).take n)

/-- Modelled from the spec: `trim_link_subsection` (from `sift.util`, not
under src/) — "target_id may carry a subsection fragment … that must be
normalized (stripped)": keep the part before the first `#`. -/
def trim_link_subsection (t : String) : String :=
  ⟨t.toList.takeWhile fun c => c ≠ '#'⟩

/-- The characters after the last `://`, if any occurs. -/
def afterProtocol : List Char → Option (List Char)
  | [] => none
  | ':' :: '/' :: '/' :: rest =>
    match afterProtocol rest with
    | some r => some r
    | none => some rest
  | _ :: rest => afterProtocol rest

/-- Modelled from the spec: `trim_link_protocol` (from `sift.util`, not
under src/) — "URL-style protocol prefix that must be … stripped": drop
everything up to and including the last `://`, leaving ids without a
protocol untouched. -/
def trim_link_protocol (t : String) : String :=
  match afterProtocol t.toList with
  | some r => ⟨r⟩
  | none => t

/-- Spark `.map(lambda x: (x, 1)).reduceByKey(add)`: one entry per distinct
element (first-encounter order) with its multiplicity. -/
def countByKey {κ : Type} [DecidableEq κ] (l : List κ) : List (κ × Nat) :=
  (dedupFirst l).map fun k => (k, l.count k)

/-- Spark `groupByKey()`: one entry per distinct key (first-encounter order)
with the list of its values in order. -/
def groupByKey {κ β : Type} [DecidableEq κ] (l : List (κ × β)) : List (κ × List β) :=
  (dedupFirst (l.map Prod.fst)).map fun k =>
    (k, (l.filter fun p => p.1 = k).map Prod.snd)

/-- Python `dict(pairs)`: one entry per distinct key, the last value for the
key winning. -/
def pyDict {α β : Type} [DecidableEq α] (l : List (α × β)) : List (α × β) :=
  (dedupFirst (l.map Prod.fst)).filterMap fun k =>
    ((l.filter fun p => p.1 = k).getLast?).map fun q => (k, q.2)

/-! ## `EntityCounts` and `EntityVocab` -/

/-- The link-target stream of `EntityCounts.build`: flatten links, take the
targets, normalize subsection and protocol. -/
def rawTargets (corpus : List Document) : List String :=
  (corpus.flatMap fun d => d.links).map fun l =>
    trim_link_protocol (trim_link_subsection l.target)

/-- The optional `startswith(filter_target)` filter of `EntityCounts.build`. -/
def filteredTargets (filter_target : Option String) (corpus : List Document) :
    List String :=
  match filter_target with
  | some ft => (rawTargets corpus).filter fun l => l.startsWith ft
  | none => rawTargets corpus

/-- `EntityCounts.build`: flatten link targets, normalize, optionally filter
by prefix, count, and keep counts above the threshold. -/
def EntityCounts_build (threshold : Int) (filter_target : Option String)
    (corpus : List Document) : List (String × Nat) :=
  (countByKey (filteredTargets filter_target corpus)).filter fun p =>
    threshold < (p.2 : Int)

/-- The descending-count order used by `sortByKey(False)` on
`(count, target)` pairs: keys are the counts. -/
def countGE (p q : Nat × String) : Prop := q.1 ≤ p.1

instance : DecidableRel countGE := fun p q => Nat.decLe q.1 p.1

instance : IsTotal (Nat × String) countGE := ⟨fun p q => Nat.le_total q.1 p.1⟩

instance : IsTrans (Nat × String) countGE := ⟨fun _ _ _ hpq hqr => le_trans hqr hpq⟩

/-- Spark `zipWithIndex()`: pair each element with its 0-based position. -/
def zipWithIndex {α : Type} (l : List α) : List (α × Nat) :=
  l.enum.map fun p => (p.2, p.1)

/-- The `(count, target)` list after `map(swap)` and `sortByKey(False)`
inside `EntityVocab.build` (descending by count, stable on ties). -/
def sortedCounts (threshold : Int) (filter_target : Option String)
    (corpus : List Document) : List (Nat × String) :=
  List.insertionSort countGE
    ((EntityCounts_build threshold filter_target corpus).map fun p => (p.2, p.1))

/-- `EntityVocab.build` before the rank-window filters: invert to
`(count, target)`, sort descending by count, `zipWithIndex`, invert back to
`(target, (count, rank))`. -/
def EntityVocab_unfiltered (threshold : Int) (filter_target : Option String)
    (corpus : List Document) : List (String × (Nat × Nat)) :=
  (zipWithIndex (sortedCounts threshold filter_target corpus)).map fun p =>
    (p.1.2, (p.1.1, p.2))

/-- The `if self.min_rank != None: ... filter(idx >= min_rank)` stage. -/
def minRankFilter (min_rank : Option Nat) (m : List (String × (Nat × Nat))) :
    List (String × (Nat × Nat)) :=
  match min_rank with
  | some mn => m.filter fun p => mn ≤ p.2.2
  | none => m

/-- The `if self.max_rank != None: ... filter(idx < max_rank)` stage. -/
def maxRankFilter (max_rank : Option Nat) (m : List (String × (Nat × Nat))) :
    List (String × (Nat × Nat)) :=
  match max_rank with
  | some mx => m.filter fun p => p.2.2 < mx
  | none => m

/-- `EntityVocab.build`: the unfiltered vocabulary, then the `min_rank` and
`max_rank` filters in that order. -/
def EntityVocab_build (threshold : Int) (filter_target : Option String)
    (min_rank max_rank : Option Nat) (corpus : List Document) :
    List (String × (Nat × Nat)) :=
  maxRankFilter max_rank
    (minRankFilter min_rank (EntityVocab_unfiltered threshold filter_target corpus))

/-! ## Claims about `EntityVocab` -/

theorem map_zipWithIndex_comp {α β : Type} (l : List α) (f : α → β) :
    (zipWithIndex l).map (fun p => f p.1) = l.map f := by
  unfold zipWithIndex
  rw [List.map_map]
  rw [show ((fun p : α × Nat => f p.1) ∘ fun p : Nat × α => (p.2, p.1))
      = f ∘ Prod.snd from rfl]
  rw [← List.map_map, List.enum_map_snd]

theorem snd_zipWithIndex {α : Type} (l : List α) :
    (zipWithIndex l).map Prod.snd = List.range l.length := by
  unfold zipWithIndex
  rw [List.map_map]
  rw [show (Prod.snd ∘ fun p : Nat × α => (p.2, p.1)) = Prod.fst from rfl]
  exact List.enum_map_fst l

theorem length_zipWithIndex {α : Type} (l : List α) :
    (zipWithIndex l).length = l.length := by
  unfold zipWithIndex
  rw [List.length_map, List.enum_length]

theorem countByKey_keys_nodup {κ : Type} [DecidableEq κ] (l : List κ) :
    ((countByKey l).map Prod.fst).Nodup := by
  unfold countByKey
  rw [List.map_map]
  rw [show (Prod.fst ∘ fun k : κ => (k, l.count k)) = id from rfl, List.map_id]
  exact nodup_dedupFirst

theorem entityCounts_keys_nodup (threshold : Int) (filter_target : Option String)
    (corpus : List Document) :
    ((EntityCounts_build threshold filter_target corpus).map Prod.fst).Nodup := by
  unfold EntityCounts_build
  exact (countByKey_keys_nodup _).sublist ((List.filter_sublist _).map _)

/-- C5: in the unfiltered vocabulary, the entity ids are pairwise distinct,
the ranks read off in list order are literally `0, 1, …, N-1` (hence a
permutation of `[0, N)` for the `N` distinct entities), and the counts are
non-increasing along ranks: the count at rank `i` is ≥ the count at
rank `i+1` (the list of counts in rank order is `Pairwise (· ≥ ·)`). -/
theorem entityVocab_rank_permutation (threshold : Int)
    (filter_target : Option String) (corpus : List Document) :
    ((EntityVocab_unfiltered threshold filter_target corpus).map Prod.fst).Nodup ∧
      (EntityVocab_unfiltered threshold filter_target corpus).map (fun p => p.2.2)
        = List.range (EntityVocab_unfiltered threshold filter_target corpus).length ∧
      ((EntityVocab_unfiltered threshold filter_target corpus).map fun p =>
        p.2.1).Pairwise fun x y => y ≤ x := by
  have hv : EntityVocab_unfiltered threshold filter_target corpus
      = (zipWithIndex (sortedCounts threshold filter_target corpus)).map fun p =>
          (p.1.2, (p.1.1, p.2)) := rfl
  have hperm : List.Perm (sortedCounts threshold filter_target corpus)
      ((EntityCounts_build threshold filter_target corpus).map fun p => (p.2, p.1)) :=
    List.perm_insertionSort countGE _
  refine ⟨?_, ?_, ?_⟩
  · rw [hv, List.map_map]
    have h1 : ((Prod.fst ∘ fun p : (Nat × String) × Nat => (p.1.2, (p.1.1, p.2)))
        : (Nat × String) × Nat → String) = fun p => Prod.snd p.1 := rfl
    rw [h1, map_zipWithIndex_comp]
    refine ((hperm.map Prod.snd).symm).nodup ?_
    rw [List.map_map]
    rw [show (Prod.snd ∘ fun p : String × Nat => (p.2, p.1)) = Prod.fst from rfl]
    exact entityCounts_keys_nodup threshold filter_target corpus
  · rw [hv, List.map_map, List.length_map, length_zipWithIndex]
    rw [show (((fun p : String × (Nat × Nat) => p.2.2)
        ∘ fun p : (Nat × String) × Nat => (p.1.2, (p.1.1, p.2)))
        : (Nat × String) × Nat → Nat) = Prod.snd from rfl]
    exact snd_zipWithIndex _
  · rw [hv, List.map_map]
    rw [show (((fun p : String × (Nat × Nat) => p.2.1)
        ∘ fun p : (Nat × String) × Nat => (p.1.2, (p.1.1, p.2)))
        : (Nat × String) × Nat → Nat) = fun p => Prod.fst p.1 from rfl]
    rw [map_zipWithIndex_comp]
    exact List.pairwise_map.mpr (List.sorted_insertionSort countGE _)

/-- C6: with both bounds given, `EntityVocab.build` keeps exactly the
entries whose unfiltered rank `r` satisfies `min_rank ≤ r < max_rank` (one
filter over the unfiltered vocabulary; the `&&` is the conjunction of the
two bounds), and in particular the output is empty whenever
`min_rank ≥ max_rank`. -/
theorem entityVocab_rank_window (threshold : Int) (filter_target : Option String)
    (mn mx : Nat) (corpus : List Document) :
    EntityVocab_build threshold filter_target (some mn) (some mx) corpus
        = (EntityVocab_unfiltered threshold filter_target corpus).filter
            (fun p => decide (p.2.2 < mx) && decide (mn ≤ p.2.2)) ∧
      (mx ≤ mn →
        EntityVocab_build threshold filter_target (some mn) (some mx) corpus = []) := by
  have h1 : EntityVocab_build threshold filter_target (some mn) (some mx) corpus
      = (EntityVocab_unfiltered threshold filter_target corpus).filter
          (fun p => decide (p.2.2 < mx) && decide (mn ≤ p.2.2)) := by
    show ((EntityVocab_unfiltered threshold filter_target corpus).filter
        (fun p => mn ≤ p.2.2)).filter (fun p => p.2.2 < mx) = _
    rw [List.filter_filter]
  refine ⟨h1, fun hge => ?_⟩
  rw [h1]
  refine List.filter_eq_nil_iff.mpr fun p _ => ?_
  simp only [Bool.and_eq_true, decide_eq_true_eq, not_and]
  intro hlt hmn
  omega

/-- C6 witness: a concrete one-entity corpus with the empty window `[2, 1)`
yields the empty vocabulary. -/
theorem entityVocab_rank_window_witness :
    EntityVocab_build 0 none (some 2) (some 1) [⟨"d1", "Paris is great",
      [⟨"Paris", 0, 5⟩]⟩] = [] :=
  (entityVocab_rank_window 0 none 2 1 _).2 (by decide)

/-! ## `NamePartCounts` -/

/-- `NamePartCounts.iter_anchors`: the anchor span text of each link,
stripped, optionally lower-cased, empty anchors dropped. -/
def iter_anchors (lowercase : Bool) (d : Document) : List String :=
  d.links.filterMap fun l =>
    let a := pyStrip (pySlice d.text l.start l.stop)
    let a := if lowercase then a.toLower else a
    if a = "" then none else some a

/-- The body of `NamePartCounts.iter_span_count_types` on the computed parts
list: first part tagged 'B', last part tagged 'E', the strictly interior
parts (indices `1 .. len-2`) tagged 'I'. -/
def span_count_types (parts : List String) : List (String × Char) :=
  match parts with
  | [] => []
  | p :: ps =>
    (p, 'B') :: ((p :: ps).getLastD p, 'E')
      :: (((p :: ps).drop 1).dropLast.map fun q => (q, 'I'))

/-- `NamePartCounts.iter_span_count_types(anchor, n)`:
`span_count_types` over `ngrams(anchor, n, n)`. -/
def iter_span_count_types (anchor : String) (n : Nat) : List (String × Char) :=
  span_count_types (ngrams anchor n)

/-- The anchor-position stream of `NamePartCounts.build`: span count types
for every anchor and every n-gram size `1 .. max_ngram`, counted by
`(term, spantype)` key, re-shaped to `(term, (spantype, count))`. -/
def anchorStream (lowercase : Bool) (max_ngram : Nat) (corpus : List Document) :
    List (String × (Char × Nat)) :=
  (countByKey ((corpus.flatMap (iter_anchors lowercase)).flatMap fun a =>
      (List.range' 1 max_ngram).flatMap fun i => iter_span_count_types a i)).map
    fun p => (p.1.1, (p.1.2, p.2))

/-- The background stream of `NamePartCounts.build`: `max_ngram`-grams over
raw document text, counted, thresholded at `count > 1`, tagged 'O'. -/
def oStream (max_ngram : Nat) (corpus : List Document) :
    List (String × (Char × Nat)) :=
  ((countByKey (corpus.flatMap fun d => ngrams d.text max_ngram)).filter
      fun p => 1 < p.2).map fun p => (p.1, ('O', p.2))

/-- `NamePartCounts.build`: union the two streams, group by term, turn each
group into a dict, and keep terms with an 'O' entry and more than one
entry. -/
def NamePartCounts_build (lowercase : Bool) (max_ngram : Nat)
    (corpus : List Document) : List (String × List (Char × Nat)) :=
  ((groupByKey (anchorStream lowercase max_ngram corpus
        ++ oStream max_ngram corpus)).map fun p => (p.1, pyDict p.2)).filter
    fun p => decide ('O' ∈ p.2.map Prod.fst) && decide (1 < p.2.length)

/-! ## Lemmas about the counting combinators -/

theorem mem_countByKey {κ : Type} [DecidableEq κ] {l : List κ} {k : κ} {c : Nat} :
    (k, c) ∈ countByKey l ↔ k ∈ l ∧ c = l.count k := by
  unfold countByKey
  rw [List.mem_map]
  constructor
  · rintro ⟨k', hk', heq⟩
    simp only [Prod.mk.injEq] at heq
    obtain ⟨h1, h2⟩ := heq
    subst h1
    exact ⟨mem_dedupFirst.mp hk', h2.symm⟩
  · rintro ⟨hk, rfl⟩
    exact ⟨k, mem_dedupFirst.mpr hk, rfl⟩

theorem groupByKey_forall_mem {κ β : Type} [DecidableEq κ]
    {l : List (κ × β)} {k : κ} {vs : List β}
    (h : (k, vs) ∈ groupByKey l) : ∀ v ∈ vs, (k, v) ∈ l := by
  unfold groupByKey at h
  rw [List.mem_map] at h
  obtain ⟨k', _, heq⟩ := h
  simp only [Prod.mk.injEq] at heq
  obtain ⟨h1, h2⟩ := heq
  intro v hv
  rw [← h2, List.mem_map] at hv
  obtain ⟨q, hq, hv⟩ := hv
  rw [List.mem_filter] at hq
  have hk : q.1 = k' := by simpa using hq.2
  have heq2 : (k, v) = q := by rw [← h1, ← hk, ← hv]
  rw [heq2]
  exact hq.1

theorem filterMap_keys_sublist {α β : Type} (g : α → Option (α × β))
    (h : ∀ a p, g a = some p → p.1 = a) :
    ∀ l : List α, List.Sublist ((l.filterMap g).map Prod.fst) l := by
  intro l
  induction l with
  | nil => simp
  | cons x xs ih =>
    rw [List.filterMap_cons]
    cases hx : g x with
    | none => exact ih.cons x
    | some p =>
      rw [List.map_cons, h x p hx]
      exact ih.cons₂ x

theorem pyDict_keys_nodup {α β : Type} [DecidableEq α] (l : List (α × β)) :
    ((pyDict l).map Prod.fst).Nodup := by
  unfold pyDict
  have hsub := filterMap_keys_sublist
    (fun k => ((l.filter fun p => p.1 = k).getLast?).map fun q => (k, q.2))
    (by
      intro a p hg
      have hg' : ((l.filter fun p => p.1 = a).getLast?).map
          (fun q => (a, q.2)) = some p := hg
      cases hlast : (l.filter fun p => p.1 = a).getLast? with
      | none =>
        rw [hlast] at hg'
        exact Option.noConfusion (show (none : Option (α × β)) = some p from hg')
      | some q =>
        rw [hlast] at hg'
        have h2 : (a, q.2) = p := Option.some.inj hg'
        rw [← h2])
    (dedupFirst (l.map Prod.fst))
  exact nodup_dedupFirst.sublist hsub

theorem mem_keys_pyDict {α β : Type} [DecidableEq α] {l : List (α × β)} {k : α}
    (h : k ∈ (pyDict l).map Prod.fst) : ∃ b, (k, b) ∈ l := by
  unfold pyDict at h
  rw [List.mem_map] at h
  obtain ⟨p, hp, hk⟩ := h
  rw [List.mem_filterMap] at hp
  obtain ⟨a, ha, hg⟩ := hp
  have hg' : ((l.filter fun q => q.1 = a).getLast?).map
      (fun q => (a, q.2)) = some p := hg
  have hpa : p.1 = a := by
    cases hlast : (l.filter fun q => q.1 = a).getLast? with
    | none =>
      rw [hlast] at hg'
      exact Option.noConfusion (show (none : Option (α × β)) = some p from hg')
    | some q =>
      rw [hlast] at hg'
      have h2 : (a, q.2) = p := Option.some.inj hg'
      rw [← h2]
  rw [← hk, hpa]
  have : a ∈ l.map Prod.fst := mem_dedupFirst.mp ha
  rw [List.mem_map] at this
  obtain ⟨r, hr, hra⟩ := this
  exact ⟨r.2, by rw [← hra]; exact hr⟩

theorem exists_ne_of_nodup {α : Type} {l : List α} {a : α} (hn : l.Nodup)
    (hl : 1 < l.length) : ∃ b ∈ l, b ≠ a := by
  match l, hn, hl with
  | [], _, hl => simp at hl
  | [x], _, hl => simp at hl
  | x :: y :: rest, hn, _ =>
    obtain ⟨hx, _⟩ := List.nodup_cons.mp hn
    by_cases hxa : x = a
    · refine ⟨y, by simp, fun hya => ?_⟩
      exact hx (by rw [hxa, ← hya]; exact List.mem_cons_self _ _)
    · exact ⟨x, List.mem_cons_self _ _, hxa⟩

theorem span_count_types_tags {parts : List String} {s : String} {tag : Char}
    (h : (s, tag) ∈ span_count_types parts) :
    tag = 'B' ∨ tag = 'E' ∨ tag = 'I' := by
  match parts with
  | [] => simp [span_count_types] at h
  | p :: ps =>
    simp only [span_count_types, List.mem_cons, List.mem_map,
      Prod.mk.injEq] at h
    rcases h with ⟨_, h⟩ | h | h
    · exact Or.inl h
    · exact Or.inr (Or.inl h.2)
    · obtain ⟨q, _, _, h⟩ := h
      exact Or.inr (Or.inr h.symm)

theorem anchorStream_tag {lowercase : Bool} {max_ngram : Nat}
    {corpus : List Document} {t : String} {tag : Char} {c : Nat}
    (h : (t, (tag, c)) ∈ anchorStream lowercase max_ngram corpus) :
    tag = 'B' ∨ tag = 'E' ∨ tag = 'I' := by
  unfold anchorStream at h
  rw [List.mem_map] at h
  obtain ⟨p, hp, heq⟩ := h
  simp only [Prod.mk.injEq] at heq
  obtain ⟨h1, h2, _⟩ := heq
  have hmem := (mem_countByKey.mp (by
    have : ((p.1.1, p.1.2), p.2) = p := by
      rw [show ((p.1.1, p.1.2) : String × Char) = p.1 from rfl]
    rw [this]
    exact hp)).1
  rw [List.mem_flatMap] at hmem
  obtain ⟨a, _, hmem⟩ := hmem
  rw [List.mem_flatMap] at hmem
  obtain ⟨i, _, hmem⟩ := hmem
  have := span_count_types_tags hmem
  rw [h2] at this
  exact this

theorem oStream_mem {max_ngram : Nat} {corpus : List Document}
    {t : String} {tag : Char} {c : Nat}
    (h : (t, (tag, c)) ∈ oStream max_ngram corpus) :
    tag = 'O' ∧ 1 < (corpus.flatMap fun d => ngrams d.text max_ngram).count t := by
  unfold oStream at h
  rw [List.mem_map] at h
  obtain ⟨p, hp, heq⟩ := h
  simp only [Prod.mk.injEq] at heq
  obtain ⟨h1, h2, h3⟩ := heq
  rw [List.mem_filter] at hp
  obtain ⟨hcnt, hgt⟩ := hp
  have := (mem_countByKey.mp (by
    rw [show (p.1, p.2) = p from rfl]
    exact hcnt)).2
  refine ⟨h2.symm, ?_⟩
  rw [← h1, ← this]
  simpa using hgt

/-! ## Claims about `NamePartCounts` -/

/-- C7: every term in the output of `NamePartCounts.build` has an 'O' entry
and at least one non-'O' entry; and a term whose total count over raw
document text is 1 never receives an 'O' entry (it is absent from the
thresholded 'O' stream) and is absent from the output — in particular a
term occurring only inside anchors (no 'O' entry at all) never survives the
final filter. -/
theorem namePartCounts_O_and_nonO (lowercase : Bool) (max_ngram : Nat)
    (corpus : List Document) :
    (∀ term cs, (term, cs) ∈ NamePartCounts_build lowercase max_ngram corpus →
        'O' ∈ cs.map Prod.fst ∧ ∃ t ∈ cs.map Prod.fst, t ≠ 'O') ∧
      ∀ term, (corpus.flatMap fun d => ngrams d.text max_ngram).count term = 1 →
        term ∉ (oStream max_ngram corpus).map Prod.fst ∧
          term ∉ (NamePartCounts_build lowercase max_ngram corpus).map Prod.fst := by
  constructor
  · intro term cs hmem
    unfold NamePartCounts_build at hmem
    rw [List.mem_filter] at hmem
    obtain ⟨hmem, hpred⟩ := hmem
    simp only [Bool.and_eq_true, decide_eq_true_eq] at hpred
    obtain ⟨hO, hlen⟩ := hpred
    refine ⟨hO, ?_⟩
    rw [List.mem_map] at hmem
    obtain ⟨q, _, heq⟩ := hmem
    simp only [Prod.mk.injEq] at heq
    obtain ⟨_, h2⟩ := heq
    have hnodup : (cs.map Prod.fst).Nodup := by
      rw [← h2]
      exact pyDict_keys_nodup _
    have hlen2 : 1 < (cs.map Prod.fst).length := by
      rw [List.length_map]
      exact hlen
    exact exists_ne_of_nodup hnodup hlen2
  · intro term hcount
    have hOkeys : term ∉ (oStream max_ngram corpus).map Prod.fst := by
      intro h
      rw [List.mem_map] at h
      obtain ⟨p, hp, hfst⟩ := h
      have hmem : (term, (p.2.1, p.2.2)) ∈ oStream max_ngram corpus := by
        rw [show ((term, (p.2.1, p.2.2)) : String × (Char × Nat)) = p from by
          rw [← hfst]]
        exact hp
      have := (oStream_mem hmem).2
      omega
    refine ⟨hOkeys, ?_⟩
    intro h
    rw [List.mem_map] at h
    obtain ⟨pc, hpc, hfst⟩ := h
    unfold NamePartCounts_build at hpc
    rw [List.mem_filter] at hpc
    obtain ⟨hmem, hpred⟩ := hpc
    simp only [Bool.and_eq_true, decide_eq_true_eq] at hpred
    rw [List.mem_map] at hmem
    obtain ⟨q, hq, heq⟩ := hmem
    have hq1 : q.1 = term := by rw [← hfst, ← heq]
    rw [← heq] at hpred
    obtain ⟨b, hb⟩ := mem_keys_pyDict hpred.1
    have hgrp : (term, q.2) ∈ groupByKey (anchorStream lowercase max_ngram corpus
        ++ oStream max_ngram corpus) := by
      rw [show ((term, q.2) : String × List (Char × Nat)) = q from by rw [← hq1]]
      exact hq
    have hpair := groupByKey_forall_mem hgrp ('O', b) hb
    rw [List.mem_append] at hpair
    rcases hpair with ha | ho
    · rcases anchorStream_tag ha with h | h | h <;> exact absurd h (by decide)
    · have := (oStream_mem ho).2
      omega

/-- C7 witness: in the corpus [⟨"d1", "a b a", [one anchor "a"]⟩] with
`max_ngram = 1`, the term "a" (count 2 in the text, and anchored) gets an
'O' entry plus non-'O' entries, while the term "b" (text count 1) has no
'O' entry and is absent from the output. -/
theorem namePartCounts_O_and_nonO_witness :
    ('O' ∈ ([('B', 1), ('E', 1), ('O', 2)] : List (Char × Nat)).map Prod.fst ∧
        ∃ t ∈ ([('B', 1), ('E', 1), ('O', 2)] : List (Char × Nat)).map Prod.fst,
          t ≠ 'O') ∧
      "b" ∉ (oStream 1 [⟨"d1", "a b a", [⟨"X", 0, 1⟩]⟩]).map Prod.fst ∧
        "b" ∉ (NamePartCounts_build false 1
          [⟨"d1", "a b a", [⟨"X", 0, 1⟩]⟩]).map Prod.fst :=
  ⟨(namePartCounts_O_and_nonO false 1 [⟨"d1", "a b a", [⟨"X", 0, 1⟩]⟩]).1
      "a" [('B', 1), ('E', 1), ('O', 2)] (by decide),
    (namePartCounts_O_and_nonO false 1 [⟨"d1", "a b a", [⟨"X", 0, 1⟩]⟩]).2
      "b" (by decide)⟩

/-- C9: when the n-gram decomposition of an anchor at size `n` has exactly
one part, `iter_span_count_types` emits that part twice — once tagged 'B'
and once tagged 'E' — and never 'I'. -/
theorem iter_span_single_part (anchor : String) (n : Nat) (p : String)
    (h : ngrams anchor n = [p]) :
    iter_span_count_types anchor n = [(p, 'B'), (p, 'E')] := by
  unfold iter_span_count_types
  rw [h]
  rfl

/-- C9 witness: the single-token anchor "New" at `n = 1`. -/
theorem iter_span_single_part_witness :
    iter_span_count_types "New" 1 = [("New", 'B'), ("New", 'E')] :=
  iter_span_single_part "New" 1 "New" (by rfl)

/-! ## `EntityComentions` and `MappedEntityComentions` -/

/-- `EntityComentions.iter_unique_links`: normalized link targets,
de-duplicated keeping the first occurrence (the Python `links` seen-set). -/
def iter_unique_links (d : Document) : List String :=
  dedupFirst (d.links.map fun l => trim_link_protocol (trim_link_subsection l.target))

/-- `EntityComentions.build`: one `(uri, unique-links)` record per document,
keeping only non-empty entity lists. -/
def EntityComentions_build (corpus : List Document) : List (String × List String) :=
  (corpus.map fun d => (d._id, iter_unique_links d)).filter fun p => !p.2.isEmpty

/-- The broadcast vocabulary of `MappedEntityComentions.prepare`:
`dict` of `(term, rank)` from the loaded `(term, (count, rank))` records. -/
def evDict (vocab : List (String × (Nat × Nat))) : List (String × Nat) :=
  pyDict (vocab.map fun p => (p.1, p.2.2))

/-- `MappedEntityComentions.build`: map each entity list through the
broadcast vocabulary (`[ev[e] for e in es if e in ev]`), keeping only
non-empty mapped lists. -/
def MappedEntityComentions_build (vocab : List (String × (Nat × Nat)))
    (corpus : List Document) : List (String × List Nat) :=
  ((EntityComentions_build corpus).map fun p =>
      (p.1, p.2.filterMap fun e =>
        ((evDict vocab).find? fun q => q.1 = e).map Prod.snd)).filter
    fun p => !p.2.isEmpty

theorem bnot_isEmpty_iff {α : Type} {l : List α} : (!l.isEmpty) = true ↔ l ≠ [] := by
  cases l <;> simp

/-- C8: membership in `MappedEntityComentions.build` is exactly: a corpus
document with a non-empty de-duplicated entity list whose entities are
mapped through the broadcast vocabulary in order, entities absent from the
vocabulary silently dropped (`filterMap` of the dict lookup), the mapped
list non-empty; and on the spec's concrete instance — vocabulary
{"Paris": (10, 0)}, document entities ["Paris", "Lyon"] — the output entity
list is [0]. -/
theorem mapped_comentions_drop_missing (vocab : List (String × (Nat × Nat)))
    (corpus : List Document) (uri : String) (es : List Nat) :
    ((uri, es) ∈ MappedEntityComentions_build vocab corpus ↔
        ∃ d, d ∈ corpus ∧ d._id = uri ∧ iter_unique_links d ≠ [] ∧
          es = (iter_unique_links d).filterMap
            (fun e => ((evDict vocab).find? fun q => q.1 = e).map Prod.snd) ∧
          es ≠ []) ∧
      MappedEntityComentions_build [("Paris", (10, 0))]
          [⟨"d1", "Paris and Lyon", [⟨"Paris", 0, 5⟩, ⟨"Lyon", 10, 14⟩]⟩]
        = [("d1", [0])] := by
  constructor
  · unfold MappedEntityComentions_build EntityComentions_build
    rw [List.mem_filter, List.mem_map]
    constructor
    · rintro ⟨⟨p, hp, heq⟩, hne⟩
      rw [List.mem_filter, List.mem_map] at hp
      obtain ⟨⟨d, hd, hdp⟩, hpea⟩ := hp
      simp only [Prod.mk.injEq] at heq
      obtain ⟨h1, h2⟩ := heq
      refine ⟨d, hd, ?_, ?_, ?_, bnot_isEmpty_iff.mp hne⟩
      · rw [← h1, ← hdp]
      · refine bnot_isEmpty_iff.mp ?_
        rw [show iter_unique_links d = p.2 from by rw [← hdp]]
        exact hpea
      · rw [← h2]
        rw [show iter_unique_links d = p.2 from by rw [← hdp]]
    · rintro ⟨d, hd, hid, hne1, hes, hne2⟩
      refine ⟨⟨(d._id, iter_unique_links d), ?_, ?_⟩, bnot_isEmpty_iff.mpr hne2⟩
      · rw [List.mem_filter, List.mem_map]
        exact ⟨⟨d, hd, rfl⟩, bnot_isEmpty_iff.mpr hne1⟩
      · rw [hid, ← hes]
  · rfl

/-- C10: neither `EntityComentions.build` nor
`MappedEntityComentions.build` ever emits a record with an empty entity
list: a document with no links, or one all of whose entities are absent
from the vocabulary, is omitted entirely by the trailing truthiness
filters. -/
theorem comentions_never_empty (vocab : List (String × (Nat × Nat)))
    (corpus : List Document) :
    (∀ p ∈ EntityComentions_build corpus, p.2 ≠ []) ∧
      ∀ p ∈ MappedEntityComentions_build vocab corpus, p.2 ≠ [] := by
  constructor
  · intro p hp
    unfold EntityComentions_build at hp
    rw [List.mem_filter] at hp
    exact bnot_isEmpty_iff.mp hp.2
  · intro p hp
    unfold MappedEntityComentions_build at hp
    rw [List.mem_filter] at hp
    exact bnot_isEmpty_iff.mp hp.2

/-- C10 witness: concrete instantiation on a one-document corpus. -/
theorem comentions_never_empty_witness :
    (("d1", ["Paris"]) : String × List String).2 ≠ [] :=
  (comentions_never_empty [] [⟨"d1", "Paris", [⟨"Paris", 0, 5⟩]⟩]).1
    ("d1", ["Paris"]) (by decide)

end Sift

